import Mathlib

/-!
Verification of the Film / ImageBlock sample-accumulation engine of the
mitsuba3 fragment.  The visible source is `src/librender/python/film.cpp`,
the Python binding that exports the `FilmFlags` enumeration; the renderer
core (`mitsuba/render/film.h`, ImageBlock, Film) is not part of the
fragment, so those components are modelled from the specification, as
marked on each definition.
-/

attribute [local semireducible] Rat.add Rat.mul Rat.sub Rat.inv Rat.ofScientific

namespace Mitsuba

/-- Modelled from the spec: the numeric values of the `FilmFlags` enumeration
declared in `mitsuba/render/film.h` (the header is not part of the visible
fragment).  The spec fixes a bitmask with `None = 0` and one distinct single
bit for each of `Alpha`, `Spectral`, `Special`. -/
def FilmFlags.None : Nat := 0

/-- Modelled from the spec: the `Alpha` bit of `FilmFlags`. -/
def FilmFlags.Alpha : Nat := 1

/-- Modelled from the spec: the `Spectral` bit of `FilmFlags`. -/
def FilmFlags.Spectral : Nat := 2

/-- Modelled from the spec: the `Special` bit of `FilmFlags`. -/
def FilmFlags.Special : Nat := 4

/-- The enum entries exported by `MTS_PY_EXPORT(FilmFlags)` in
`src/librender/python/film.cpp`, in source order: the binding calls
`def_value` exactly for `None`, `Alpha`, `Spectral`, `Special`. -/
def filmFlagsExports : List (String × Nat) :=
  [("None", FilmFlags.None), ("Alpha", FilmFlags.Alpha),
   ("Spectral", FilmFlags.Spectral), ("Special", FilmFlags.Special)]

/-- Modelled from the spec: a value is a valid `FilmFlags` bitmask when it is
a combination of the three single-bit flags, i.e. lies below `2 ^ 3`. -/
def FilmFlags.valid (n : Nat) : Prop := n < 2 ^ 3

instance (n : Nat) : Decidable (FilmFlags.valid n) := by
  unfold FilmFlags.valid; infer_instance

/-- Modelled from the spec: the `has(flag)` query on a flag combination —
true when the queried bit is present in the bitmask. -/
def FilmFlags.has (flags flag : Nat) : Prop := flags &&& flag ≠ 0

instance (flags flag : Nat) : Decidable (FilmFlags.has flags flag) := by
  unfold FilmFlags.has; infer_instance

/-- The bitwise combination operators on an exported enum. -/
inductive EnumOp where
  | bor
  | band
  | bxor
deriving DecidableEq, Repr

/-- Interpretation of an `EnumOp` on the underlying bitmask values. -/
def EnumOp.apply : EnumOp → Nat → Nat → Nat
  | .bor, a, b => a ||| b
  | .band, a, b => a &&& b
  | .bxor, a, b => a ^^^ b

/-- Modelled from the spec: the bitwise operators installed on the exported
enum by `MTS_PY_DECLARE_ENUM_OPERATORS(FilmFlags, e)` in
`src/librender/python/film.cpp` (the macro itself is declared in
`mitsuba/python/python.h`, which is not part of the visible fragment): the
standard bitwise combination operators OR, AND and XOR. -/
def declaredEnumOps : List EnumOp := [.bor, .band, .bxor]

theorem lor_eq_zero_iff {u v : Nat} : u ||| v = 0 ↔ u = 0 ∧ v = 0 := by
  constructor
  · intro h
    refine ⟨Nat.eq_of_testBit_eq fun i => ?_, Nat.eq_of_testBit_eq fun i => ?_⟩ <;>
      · have hi := congrArg (fun n => Nat.testBit n i) h
        simp only [Nat.testBit_lor, Nat.zero_testBit, Bool.or_eq_false_iff] at hi
        simp [hi.1, hi.2]
  · rintro ⟨rfl, rfl⟩; rfl

/-- Claim C1: the binding exports the `FilmFlags` enumeration with exactly the
four entries `None`, `Alpha`, `Spectral`, `Special`; `None` is `0` and each of
the other three is a distinct single bit. -/
theorem filmFlags_export_exact :
    filmFlagsExports.map Prod.fst = ["None", "Alpha", "Spectral", "Special"] ∧
    filmFlagsExports.length = 4 ∧
    FilmFlags.None = 0 ∧
    FilmFlags.Alpha = 2 ^ 0 ∧ FilmFlags.Spectral = 2 ^ 1 ∧
    FilmFlags.Special = 2 ^ 2 ∧
    (filmFlagsExports.map Prod.snd).Nodup := by decide

/-- Claim C2: the bitwise OR of two valid `FilmFlags` values is a valid
`FilmFlags` value, and `has` on the combination holds exactly for the flags
that were OR-ed in. -/
theorem filmFlags_or_closed_has_exact (f g : Nat)
    (hf : FilmFlags.valid f) (hg : FilmFlags.valid g) :
    FilmFlags.valid (f ||| g) ∧
    ∀ b, FilmFlags.has (f ||| g) b ↔ (FilmFlags.has f b ∨ FilmFlags.has g b) := by
  refine ⟨Nat.or_lt_two_pow hf hg, fun b => ?_⟩
  unfold FilmFlags.has
  rw [Nat.and_distrib_right, ne_eq, lor_eq_zero_iff, not_and_or]

/-- Witness for C2 at `f = Alpha`, `g = Special`, checking the `has` query at
each of the three single-bit flags. -/
theorem filmFlags_or_closed_has_exact_witness :
    FilmFlags.valid (FilmFlags.Alpha ||| FilmFlags.Special) ∧
    ∀ b, FilmFlags.has (FilmFlags.Alpha ||| FilmFlags.Special) b ↔
      (FilmFlags.has FilmFlags.Alpha b ∨ FilmFlags.has FilmFlags.Special b) :=
  filmFlags_or_closed_has_exact FilmFlags.Alpha FilmFlags.Special
    (by decide) (by decide)

/-- Claim C10: every bitwise operator declared by
`MTS_PY_DECLARE_ENUM_OPERATORS` (OR, AND, XOR) is closed over the valid
`FilmFlags` values. -/
theorem filmFlags_enum_ops_closed (op : EnumOp)
    (hop : op ∈ declaredEnumOps) (f g : Nat)
    (hf : FilmFlags.valid f) (hg : FilmFlags.valid g) :
    FilmFlags.valid (op.apply f g) := by
  unfold FilmFlags.valid at *
  cases op with
  | bor => exact Nat.or_lt_two_pow hf hg
  | band => exact Nat.and_lt_two_pow f hg
  | bxor => exact Nat.xor_lt_two_pow hf hg

/-- Witness for C10: XOR of `Alpha` and `Spectral ||| Alpha` is a valid
`FilmFlags` value. -/
theorem filmFlags_enum_ops_closed_witness :
    FilmFlags.valid (EnumOp.bxor.apply FilmFlags.Alpha
      (FilmFlags.Spectral ||| FilmFlags.Alpha)) :=
  filmFlags_enum_ops_closed EnumOp.bxor (by decide)
    FilmFlags.Alpha (FilmFlags.Spectral ||| FilmFlags.Alpha)
    (by decide) (by decide)

/-- Modelled from the spec: a channel descriptor — name, storage offset and
width (1 for a scalar, 3 for RGB, N for spectral bins). -/
structure ChannelDescriptor where
  name : String
  offset : Nat
  width : Nat
deriving DecidableEq, Repr

/-- Modelled from the spec: a channel layout — the ordered descriptor
sequence together with the total per-pixel storage width. -/
structure ChannelLayout where
  descriptors : List ChannelDescriptor
  totalWidth : Nat
deriving DecidableEq, Repr

/-- Modelled from the spec: the error kinds surfaced at configuration time. -/
inductive ConfigurationError where
  | spectralBinCount
  | duplicateSpecialNames
deriving DecidableEq, Repr

/-- Assign consecutive offsets, starting at `start`, to a list of
(name, width) pairs. -/
def packChannels (start : Nat) : List (String × Nat) → List ChannelDescriptor
  | [] => []
  | (n, w) :: rest => ⟨n, start, w⟩ :: packChannels (start + w) rest

/-- Modelled from the spec: `ChannelLayout` construction (§4.1) — from a
`FilmFlags` value, a wavelength-bin count and the requested special-channel
names, derive the ordered descriptor sequence and total per-pixel width.
Fails with `ConfigurationError` if `Spectral` is requested with a bin count
below 1, or if `Special` channels are requested with duplicate names.  The
base channel is the spectral bin block when `Spectral` is set (spectral and
tri-chromatic layouts are mutually exclusive), RGB otherwise; `Alpha` adds a
scalar channel; `Special` adds one scalar channel per requested name. -/
def mkChannelLayout (flags : Nat) (bins : Nat) (specialNames : List String) :
    Except ConfigurationError ChannelLayout :=
  if FilmFlags.has flags FilmFlags.Spectral ∧ bins < 1 then
    .error .spectralBinCount
  else if FilmFlags.has flags FilmFlags.Special ∧ ¬ specialNames.Nodup then
    .error .duplicateSpecialNames
  else
    let base : List (String × Nat) :=
      if FilmFlags.has flags FilmFlags.Spectral then [("spectrum", bins)]
      else [("rgb", 3)]
    let alpha : List (String × Nat) :=
      if FilmFlags.has flags FilmFlags.Alpha then [("alpha", 1)] else []
    let special : List (String × Nat) :=
      if FilmFlags.has flags FilmFlags.Special then
        specialNames.map (fun n => (n, 1))
      else []
    let chans := base ++ alpha ++ special
    .ok ⟨packChannels 0 chans, (chans.map Prod.snd).sum⟩

/-- Whether layout construction reported a configuration error. -/
def layoutFails (r : Except ConfigurationError ChannelLayout) : Prop :=
  ∃ e, r = .error e

theorem packChannels_map_width (start : Nat) (l : List (String × Nat)) :
    (packChannels start l).map ChannelDescriptor.width = l.map Prod.snd := by
  induction l generalizing start with
  | nil => rfl
  | cons hd tl ih =>
    obtain ⟨n, w⟩ := hd
    simp [packChannels, ih]

theorem packChannels_offset_ge (start : Nat) (l : List (String × Nat)) :
    ∀ d ∈ packChannels start l, start ≤ d.offset := by
  induction l generalizing start with
  | nil => intro d hd; simp [packChannels] at hd
  | cons hd tl ih =>
    obtain ⟨n, w⟩ := hd
    intro d hd
    simp only [packChannels, List.mem_cons] at hd
    rcases hd with rfl | hd
    · exact Nat.le_refl _
    · exact Nat.le_trans (Nat.le_add_right _ _) (ih (start + w) d hd)

theorem packChannels_pairwise (start : Nat) (l : List (String × Nat)) :
    (packChannels start l).Pairwise
      (fun c d => c.offset + c.width ≤ d.offset) := by
  induction l generalizing start with
  | nil => exact List.Pairwise.nil
  | cons hd tl ih =>
    obtain ⟨n, w⟩ := hd
    refine List.Pairwise.cons ?_ (ih (start + w))
    intro d hd
    exact packChannels_offset_ge (start + w) tl d hd

/-- Claim C8: `ChannelLayout` construction fails with a configuration error
exactly when `Spectral` is requested with a bin count below 1 or `Special`
is requested with duplicate names; every other input succeeds. -/
theorem mkChannelLayout_fails_iff (flags bins : Nat) (names : List String) :
    layoutFails (mkChannelLayout flags bins names) ↔
      (FilmFlags.has flags FilmFlags.Spectral ∧ bins < 1) ∨
      (FilmFlags.has flags FilmFlags.Special ∧ ¬ names.Nodup) := by
  unfold mkChannelLayout layoutFails
  split
  · simp_all
  · split
    · simp_all
    · simp_all

/-- Claim C9: for every successfully constructed layout, the descriptor
widths sum to the declared total per-pixel width, and the offset ranges
`[offset, offset + width)` of distinct descriptors are pairwise disjoint. -/
theorem mkChannelLayout_widths_disjoint (flags bins : Nat)
    (names : List String) (layout : ChannelLayout)
    (h : mkChannelLayout flags bins names = .ok layout) :
    (layout.descriptors.map ChannelDescriptor.width).sum = layout.totalWidth ∧
    layout.descriptors.Pairwise
      (fun c d => c.offset + c.width ≤ d.offset ∨ d.offset + d.width ≤ c.offset) := by
  unfold mkChannelLayout at h
  split at h
  · exact absurd h (by simp)
  · split at h
    · exact absurd h (by simp)
    · injection h with h
      subst h
      constructor
      · simp [packChannels_map_width]
      · exact (packChannels_pairwise 0 _).imp (fun hcd => Or.inl hcd)

/-- Witness for C9 at `flags = Alpha`, `bins = 0`, no special names. -/
theorem mkChannelLayout_widths_disjoint_witness :
    ((ChannelLayout.mk [⟨"rgb", 0, 3⟩, ⟨"alpha", 3, 1⟩] 4).descriptors.map
        ChannelDescriptor.width).sum =
      (ChannelLayout.mk [⟨"rgb", 0, 3⟩, ⟨"alpha", 3, 1⟩] 4).totalWidth ∧
    (ChannelLayout.mk [⟨"rgb", 0, 3⟩, ⟨"alpha", 3, 1⟩] 4).descriptors.Pairwise
      (fun c d => c.offset + c.width ≤ d.offset ∨ d.offset + d.width ≤ c.offset) :=
  mkChannelLayout_widths_disjoint FilmFlags.Alpha 0 []
    (ChannelLayout.mk [⟨"rgb", 0, 3⟩, ⟨"alpha", 3, 1⟩] 4) (by rfl)

/-- Modelled from the spec: a per-pixel accumulator — a mapping from channel
offset to an accumulated value, plus one shared accumulated filter weight. -/
abbrev Accum : Type := (Nat → ℚ) × ℚ

/-- Modelled from the spec: a reconstruction filter collaborator — a weight
function over 2D offsets together with a finite support radius. -/
structure ReconFilter where
  weight : ℚ × ℚ → ℚ
  radius : ℚ

/-- The offset of the discrete pixel `p` from the continuous position `pos`. -/
def pixelOffset (p : ℤ × ℤ) (pos : ℚ × ℚ) : ℚ × ℚ :=
  ((p.1 : ℚ) - pos.1, (p.2 : ℚ) - pos.2)

/-- Pixel `p` lies within the filter's support radius of position `pos`. -/
def inSupport (flt : ReconFilter) (pos : ℚ × ℚ) (p : ℤ × ℤ) : Prop :=
  |(p.1 : ℚ) - pos.1| ≤ flt.radius ∧ |(p.2 : ℚ) - pos.2| ≤ flt.radius

instance (flt : ReconFilter) (pos : ℚ × ℚ) (p : ℤ × ℤ) :
    Decidable (inSupport flt pos p) := by
  unfold inSupport; infer_instance

/-- Modelled from the spec: the weighted contribution one sample at `pos`
makes to pixel `p` — `weight * value` for each channel plus `weight` into the
shared weight slot, zero outside the filter support. -/
def splat (flt : ReconFilter) (pos : ℚ × ℚ) (sample : Nat → ℚ) (p : ℤ × ℤ) :
    Accum :=
  if inSupport flt pos p then
    (fun c => flt.weight (pixelOffset p pos) * sample c,
     flt.weight (pixelOffset p pos))
  else 0

/-- The valid pixel region of a tile of extent `size` with border `border`:
`[-border, size + border)` componentwise. -/
def pixRegion (size : ℤ × ℤ) (border : ℤ) (p : ℤ × ℤ) : Prop :=
  (-border ≤ p.1 ∧ p.1 < size.1 + border) ∧
  (-border ≤ p.2 ∧ p.2 < size.2 + border)

instance (size : ℤ × ℤ) (border : ℤ) (p : ℤ × ℤ) :
    Decidable (pixRegion size border p) := by
  unfold pixRegion; infer_instance

/-- The valid continuous position range of a tile: `[-border, size + border)`
componentwise. -/
def posRange (size : ℤ × ℤ) (border : ℤ) (pos : ℚ × ℚ) : Prop :=
  (-(border : ℚ) ≤ pos.1 ∧ pos.1 < (size.1 : ℚ) + (border : ℚ)) ∧
  (-(border : ℚ) ≤ pos.2 ∧ pos.2 < (size.2 : ℚ) + (border : ℚ))

instance (size : ℤ × ℤ) (border : ℤ) (pos : ℚ × ℚ) :
    Decidable (posRange size border pos) := by
  unfold posRange; infer_instance

/-- Modelled from the spec: an ImageBlock — a rectangular accumulation tile
with origin, extent, border, and a buffer of per-pixel accumulators over the
region `[-border, size + border)`. -/
@[ext] structure ImageBlock where
  origin : ℤ × ℤ
  size : ℤ × ℤ
  border : ℤ
  buffer : (ℤ × ℤ) → Accum

/-- Pixel `p` (in block-local coordinates) lies in the block's buffer. -/
def ImageBlock.pixInRegion (b : ImageBlock) (p : ℤ × ℤ) : Prop :=
  pixRegion b.size b.border p

instance (b : ImageBlock) (p : ℤ × ℤ) : Decidable (b.pixInRegion p) := by
  unfold ImageBlock.pixInRegion; infer_instance

/-- Position `pos` (in block-local coordinates) lies in the block's valid
range `[-border, size + border)`. -/
def ImageBlock.posInRange (b : ImageBlock) (pos : ℚ × ℚ) : Prop :=
  posRange b.size b.border pos

instance (b : ImageBlock) (pos : ℚ × ℚ) : Decidable (b.posInRange pos) := by
  unfold ImageBlock.posInRange; infer_instance

/-- Modelled from the spec: `ImageBlock.create` — a zero-initialized buffer
over the bordered region. -/
def ImageBlock.create (origin size : ℤ × ℤ) (border : ℤ) : ImageBlock :=
  ⟨origin, size, border, fun _ => 0⟩

/-- Modelled from the spec: `ImageBlock.put` (§4.2) — positions outside
`[-border, size + border)` are rejected as a no-op; otherwise every pixel of
the buffer within the filter's support radius of `pos` accumulates
`weight * value` per channel and `weight` into the shared weight slot. -/
def ImageBlock.put (b : ImageBlock) (pos : ℚ × ℚ) (sample : Nat → ℚ)
    (flt : ReconFilter) : ImageBlock :=
  if b.posInRange pos then
    { b with buffer := fun p =>
        if b.pixInRegion p then b.buffer p + splat flt pos sample p
        else b.buffer p }
  else b

/-- Modelled from the spec: `ImageBlock.clear` — reset the buffer to zero. -/
def ImageBlock.clear (b : ImageBlock) : ImageBlock :=
  { b with buffer := fun _ => 0 }

/-- The master-grid region of a film of resolution `res`: `[0, res)`
componentwise. -/
def filmRegion (res : ℤ × ℤ) (q : ℤ × ℤ) : Prop :=
  (0 ≤ q.1 ∧ q.1 < res.1) ∧ (0 ≤ q.2 ∧ q.2 < res.2)

instance (res : ℤ × ℤ) (q : ℤ × ℤ) : Decidable (filmRegion res q) := by
  unfold filmRegion; infer_instance

/-- Modelled from the spec: a Film — the full-resolution master pixel grid,
the block border (filter radius rounded up), the reconstruction filter
reference and the master grid of per-pixel accumulators. -/
@[ext] structure Film where
  resolution : ℤ × ℤ
  border : ℤ
  flt : ReconFilter
  grid : (ℤ × ℤ) → Accum

/-- Pixel `q` lies on the film's master grid. -/
def Film.pixInFilm (f : Film) (q : ℤ × ℤ) : Prop := filmRegion f.resolution q

instance (f : Film) (q : ℤ × ℤ) : Decidable (f.pixInFilm q) := by
  unfold Film.pixInFilm; infer_instance

/-- Modelled from the spec: `Film.put_block` (§4.3) — for every pixel of the
block's interior-plus-border region that maps onto the master grid, add the
block's (value, weight) accumulator into the corresponding master pixel. -/
def Film.put_block (f : Film) (b : ImageBlock) : Film :=
  { f with grid := fun q =>
      if b.pixInRegion (q.1 - b.origin.1, q.2 - b.origin.2) ∧ f.pixInFilm q then
        f.grid q + b.buffer (q.1 - b.origin.1, q.2 - b.origin.2)
      else f.grid q }

/-- Modelled from the spec: `Film.develop` (§4.3) — for each requested
channel and pixel, `accumulated_value / accumulated_weight`, with the defined
fallback value zero when the accumulated weight is zero; the result is a
dense buffer in the requested channel order. -/
def Film.develop (f : Film) (subset : List Nat) (q : ℤ × ℤ) (i : Nat) : ℚ :=
  if (f.grid q).2 = 0 then 0
  else (f.grid q).1 (subset.getD i 0) / (f.grid q).2

/-- Modelled from the spec: `develop` as a state transition — it reads the
master grid and returns the film together with the developed output; per the
spec it is side-effect-free, so the film component is the unchanged input. -/
def Film.developOp (f : Film) (subset : List Nat) :
    Film × ((ℤ × ℤ) → Nat → ℚ) :=
  ({ resolution := f.resolution, border := f.border, flt := f.flt,
     grid := f.grid },
   fun q i => f.develop subset q i)

/-- Modelled from the spec: `Film.clear` — reset the master grid to zero. -/
def Film.clear (f : Film) : Film := { f with grid := fun _ => 0 }

/-- Claim C5: a `put` at a position strictly outside `[-border, size+border)`
is a no-op — the block (in particular its buffer) is unchanged, and no write
outside the buffer region occurs. -/
theorem put_out_of_range_noop (b : ImageBlock) (pos : ℚ × ℚ)
    (sample : Nat → ℚ) (flt : ReconFilter) (h : ¬ b.posInRange pos) :
    b.put pos sample flt = b := by
  unfold ImageBlock.put
  rw [if_neg h]

/-- Witness for C5: a put at x = 10 on a 4×4 block with border 1 leaves the
block unchanged. -/
theorem put_out_of_range_noop_witness :
    (ImageBlock.create (0, 0) (4, 4) 1).put ((10 : ℚ), (0 : ℚ))
        (fun _ => 1) ⟨fun _ => 1, 1⟩
      = ImageBlock.create (0, 0) (4, 4) 1 :=
  put_out_of_range_noop (ImageBlock.create (0, 0) (4, 4) 1)
    ((10 : ℚ), (0 : ℚ)) (fun _ => 1) ⟨fun _ => 1, 1⟩ (by decide)

/-- Claim C6: an in-range `put` adds, at every buffer pixel within the
filter's support radius of the position, `weight * value` to each channel
slot and `weight` to the shared weight slot; buffer pixels outside the
support are unchanged. -/
theorem put_in_range_adds (b : ImageBlock) (pos : ℚ × ℚ) (sample : Nat → ℚ)
    (flt : ReconFilter) (p : ℤ × ℤ)
    (hpos : b.posInRange pos) (hp : b.pixInRegion p) :
    (b.put pos sample flt).buffer p =
      if inSupport flt pos p then
        (fun c => (b.buffer p).1 c + flt.weight (pixelOffset p pos) * sample c,
         (b.buffer p).2 + flt.weight (pixelOffset p pos))
      else b.buffer p := by
  unfold ImageBlock.put
  rw [if_pos hpos]
  show (if b.pixInRegion p then b.buffer p + splat flt pos sample p
        else b.buffer p) = _
  rw [if_pos hp]
  unfold splat
  by_cases h : inSupport flt pos p
  · rw [if_pos h, if_pos h]
    rfl
  · rw [if_neg h, if_neg h]
    exact add_zero _

/-- Witness for C6: a put at (2,2) on a 4×4 block with border 1, box filter
of radius 1 and constant weight 1, evaluated at pixel (2,2). -/
theorem put_in_range_adds_witness :
    ((ImageBlock.create (0, 0) (4, 4) 1).put ((2 : ℚ), (2 : ℚ))
        (fun _ => 5) ⟨fun _ => 1, 1⟩).buffer (2, 2) =
      if inSupport ⟨fun _ => 1, 1⟩ ((2 : ℚ), (2 : ℚ)) (2, 2) then
        (fun c => ((ImageBlock.create (0, 0) (4, 4) 1).buffer (2, 2)).1 c +
            ReconFilter.weight ⟨fun _ => 1, 1⟩
              (pixelOffset (2, 2) ((2 : ℚ), (2 : ℚ))) * (fun _ => (5 : ℚ)) c,
         ((ImageBlock.create (0, 0) (4, 4) 1).buffer (2, 2)).2 +
            ReconFilter.weight ⟨fun _ => 1, 1⟩
              (pixelOffset (2, 2) ((2 : ℚ), (2 : ℚ))))
      else (ImageBlock.create (0, 0) (4, 4) 1).buffer (2, 2) :=
  put_in_range_adds (ImageBlock.create (0, 0) (4, 4) 1) ((2 : ℚ), (2 : ℚ))
    (fun _ => 5) ⟨fun _ => 1, 1⟩ (2, 2) (by decide) (by decide)

/-- Claim C7: `develop` returns `accumulated_value / accumulated_weight` for
a pixel with nonzero accumulated weight, and the defined fallback value zero
when the accumulated weight is zero. -/
theorem develop_normalizes (f : Film) (subset : List Nat) (q : ℤ × ℤ)
    (i : Nat) :
    f.develop subset q i =
      if (f.grid q).2 = 0 then 0
      else (f.grid q).1 (subset.getD i 0) / (f.grid q).2 := rfl

/-- Claim C4: `develop` does not change the Film's state, and two consecutive
`develop` calls with the same channel subset and no intervening mutation
return identical output. -/
theorem developOp_pure_idempotent (f : Film) (subset : List Nat) :
    (f.developOp subset).1 = f ∧
    ((f.developOp subset).1.developOp subset).2 = (f.developOp subset).2 :=
  ⟨rfl, rfl⟩

/-- Modelled from the spec: one sample splatted into a tile — an image-plane
position in block-local coordinates and the per-channel sample values. -/
structure TileSample where
  pos : ℚ × ℚ
  sample : Nat → ℚ

/-- Modelled from the spec: a tile together with the samples its worker
splats into it before submitting the completed block. -/
structure TileSpec where
  origin : ℤ × ℤ
  size : ℤ × ℤ
  samples : List TileSample

/-- Position `pos` lies in the tile proper, `[0, size)`. -/
def posInTile (size : ℤ × ℤ) (pos : ℚ × ℚ) : Prop :=
  (0 ≤ pos.1 ∧ pos.1 < (size.1 : ℚ)) ∧ (0 ≤ pos.2 ∧ pos.2 < (size.2 : ℚ))

instance (size : ℤ × ℤ) (pos : ℚ × ℚ) : Decidable (posInTile size pos) := by
  unfold posInTile; infer_instance

/-- A tile is valid when all of its samples lie in the tile proper (the
integration loop samples positions of the tile it owns). -/
def TileSpec.valid (t : TileSpec) : Prop :=
  ∀ s ∈ t.samples, posInTile t.size s.pos

instance (t : TileSpec) : Decidable t.valid := by
  unfold TileSpec.valid; exact List.decidableBAll _ _

/-- Modelled from the spec: the completed block a worker submits for a tile —
created with the film's border (`create_block`) and filled by one `put` call
per sample using the film's reconstruction filter. -/
def mkBlock (f : Film) (t : TileSpec) : ImageBlock :=
  t.samples.foldl (fun b s => b.put s.pos s.sample f.flt)
    (ImageBlock.create t.origin t.size f.border)

/-- Merging a list of completed blocks into the film, in order. -/
def Film.putBlocks (f : Film) (bs : List ImageBlock) : Film :=
  bs.foldl Film.put_block f

/-- The image-plane (global) position of a tile sample. -/
def globalPos (t : TileSpec) (s : TileSample) : ℚ × ℚ :=
  ((t.origin.1 : ℚ) + s.pos.1, (t.origin.2 : ℚ) + s.pos.2)

/-- Modelled from the spec: accumulating one sample directly into the film's
master grid, using the film's reconstruction filter. -/
def Film.putSampleDirect (f : Film) (gpos : ℚ × ℚ) (sample : Nat → ℚ) :
    Film :=
  { f with grid := fun q =>
      if f.pixInFilm q then f.grid q + splat f.flt gpos sample q
      else f.grid q }

/-- Accumulating the union of all the tiles' samples directly into one
film. -/
def Film.directAccum (f : Film) (ts : List TileSpec) : Film :=
  ((ts.map fun t => t.samples.map fun s => (globalPos t s, s.sample)).flatten).foldl
    (fun g p => g.putSampleDirect p.1 p.2) f

/-- The contribution a submitted block makes to master pixel `q` of a film of
resolution `res`. -/
def blockContrib (res : ℤ × ℤ) (b : ImageBlock) (q : ℤ × ℤ) : Accum :=
  if b.pixInRegion (q.1 - b.origin.1, q.2 - b.origin.2) ∧ filmRegion res q then
    b.buffer (q.1 - b.origin.1, q.2 - b.origin.2)
  else 0

theorem put_block_resolution (f : Film) (b : ImageBlock) :
    (f.put_block b).resolution = f.resolution := rfl

theorem put_block_grid_q (f : Film) (b : ImageBlock) (q : ℤ × ℤ) :
    (f.put_block b).grid q = f.grid q + blockContrib f.resolution b q := by
  show (if b.pixInRegion (q.1 - b.origin.1, q.2 - b.origin.2) ∧ f.pixInFilm q
        then f.grid q + b.buffer (q.1 - b.origin.1, q.2 - b.origin.2)
        else f.grid q) = f.grid q + blockContrib f.resolution b q
  unfold blockContrib Film.pixInFilm
  split
  next => rfl
  next => rw [add_zero]

theorem putBlocks_resolution (bs : List ImageBlock) (f : Film) :
    (f.putBlocks bs).resolution = f.resolution := by
  induction bs generalizing f with
  | nil => rfl
  | cons b bs ih => exact ih (f.put_block b)

theorem putBlocks_border (bs : List ImageBlock) (f : Film) :
    (f.putBlocks bs).border = f.border := by
  induction bs generalizing f with
  | nil => rfl
  | cons b bs ih => exact ih (f.put_block b)

theorem putBlocks_flt (bs : List ImageBlock) (f : Film) :
    (f.putBlocks bs).flt = f.flt := by
  induction bs generalizing f with
  | nil => rfl
  | cons b bs ih => exact ih (f.put_block b)

theorem putBlocks_grid_q (bs : List ImageBlock) (f : Film) (q : ℤ × ℤ) :
    (f.putBlocks bs).grid q =
      f.grid q + (bs.map fun b => blockContrib f.resolution b q).sum := by
  induction bs generalizing f with
  | nil => simp [Film.putBlocks]
  | cons b bs ih =>
    show ((f.put_block b).putBlocks bs).grid q = _
    rw [ih (f.put_block b), put_block_grid_q, put_block_resolution,
      List.map_cons, List.sum_cons, add_assoc]

theorem posInTile_posRange (size : ℤ × ℤ) (border : ℤ) (hb : 0 ≤ border)
    (pos : ℚ × ℚ) (h : posInTile size pos) : posRange size border pos := by
  obtain ⟨⟨h1, h2⟩, h3, h4⟩ := h
  have hbq : (0 : ℚ) ≤ (border : ℚ) := by exact_mod_cast hb
  exact ⟨⟨by linarith, by linarith⟩, by linarith, by linarith⟩

theorem sum_map_zero {α M : Type _} [AddCommMonoid M] (L : List α) :
    (L.map fun _ => (0 : M)).sum = 0 := by
  induction L with
  | nil => rfl
  | cons a L ih => simp [ih]

theorem sum_map_ite {α M : Type _} [AddCommMonoid M] (c : Prop) [Decidable c]
    (L : List α) (g : α → M) :
    (L.map fun a => if c then g a else 0).sum =
      if c then (L.map g).sum else 0 := by
  by_cases h : c
  · simp only [if_pos h]
  · simp only [if_neg h]
    exact sum_map_zero L

theorem sum_map_over_flatten {α M : Type _} [AddCommMonoid M]
    (L : List (List α)) (g : α → M) :
    (L.flatten.map g).sum = (L.map fun l => (l.map g).sum).sum := by
  induction L with
  | nil => rfl
  | cons l L ih => simp [List.map_append, List.sum_append, ih, Function.comp_def]

theorem splat_translate (flt : ReconFilter) (pos : ℚ × ℚ) (sample : Nat → ℚ)
    (o q : ℤ × ℤ) :
    splat flt pos sample (q.1 - o.1, q.2 - o.2)
      = splat flt ((o.1 : ℚ) + pos.1, (o.2 : ℚ) + pos.2) sample q := by
  have h1 : ((q.1 - o.1 : ℤ) : ℚ) - pos.1 = (q.1 : ℚ) - ((o.1 : ℚ) + pos.1) := by
    push_cast; ring
  have h2 : ((q.2 - o.2 : ℤ) : ℚ) - pos.2 = (q.2 : ℚ) - ((o.2 : ℚ) + pos.2) := by
    push_cast; ring
  unfold splat inSupport pixelOffset
  simp only [h1, h2]

theorem splat_vanishes_outside (flt : ReconFilter) (sz : ℤ × ℤ) (bd : ℤ)
    (pos : ℚ × ℚ) (sample : Nat → ℚ) (p : ℤ × ℤ)
    (hrb : flt.radius ≤ (bd : ℚ)) (hpos : posInTile sz pos)
    (hp : ¬ pixRegion sz bd p) :
    splat flt pos sample p = 0 := by
  unfold splat
  rw [if_neg]
  intro hsup
  apply hp
  obtain ⟨hx, hy⟩ := hsup
  rw [abs_le] at hx hy
  obtain ⟨⟨h1, h2⟩, h3, h4⟩ := hpos
  constructor
  · constructor
    · have hq : ((-bd : ℤ) : ℚ) ≤ (p.1 : ℚ) := by push_cast; linarith [hx.1]
      exact_mod_cast hq
    · have hq : (p.1 : ℚ) < ((sz.1 + bd : ℤ) : ℚ) := by push_cast; linarith [hx.2]
      exact_mod_cast hq
  · constructor
    · have hq : ((-bd : ℤ) : ℚ) ≤ (p.2 : ℚ) := by push_cast; linarith [hy.1]
      exact_mod_cast hq
    · have hq : (p.2 : ℚ) < ((sz.2 + bd : ℤ) : ℚ) := by push_cast; linarith [hy.2]
      exact_mod_cast hq

theorem foldl_put_buffer (flt : ReconFilter) (o sz : ℤ × ℤ) (bd : ℤ)
    (hb : 0 ≤ bd) :
    ∀ (samples : List TileSample) (g : (ℤ × ℤ) → Accum),
      (∀ s ∈ samples, posInTile sz s.pos) →
      samples.foldl (fun b s => b.put s.pos s.sample flt)
          (ImageBlock.mk o sz bd fun p => if pixRegion sz bd p then g p else 0)
        = ImageBlock.mk o sz bd (fun p =>
            if pixRegion sz bd p then
              g p + (samples.map fun s => splat flt s.pos s.sample p).sum
            else 0) := by
  intro samples
  induction samples with
  | nil =>
    intro g _
    show ImageBlock.mk o sz bd _ = _
    congr 1
    funext p
    split
    · rw [List.map_nil, List.sum_nil, add_zero]
    · rfl
  | cons s ss ih =>
    intro g hs
    have hrange : (ImageBlock.mk o sz bd fun p =>
        if pixRegion sz bd p then g p else 0).posInRange s.pos :=
      posInTile_posRange sz bd hb s.pos (hs s (List.mem_cons_self s ss))
    have hput : (ImageBlock.mk o sz bd fun p =>
          if pixRegion sz bd p then g p else 0).put s.pos s.sample flt
        = ImageBlock.mk o sz bd (fun p =>
            if pixRegion sz bd p then g p + splat flt s.pos s.sample p
            else 0) := by
      unfold ImageBlock.put
      rw [if_pos hrange]
      congr 1
      funext p
      show (if (ImageBlock.mk o sz bd _).pixInRegion p then _ else _) = _
      by_cases hp : pixRegion sz bd p
      · rw [if_pos (show (ImageBlock.mk o sz bd _).pixInRegion p from hp),
          if_pos hp]
        show (if pixRegion sz bd p then g p else 0) + splat flt s.pos s.sample p
          = g p + splat flt s.pos s.sample p
        rw [if_pos hp]
      · rw [if_neg (show ¬ (ImageBlock.mk o sz bd _).pixInRegion p from hp),
          if_neg hp]
        show (if pixRegion sz bd p then g p else 0) = 0
        rw [if_neg hp]
    show ss.foldl _ ((ImageBlock.mk o sz bd _).put s.pos s.sample flt) = _
    rw [hput, ih (fun p => g p + splat flt s.pos s.sample p)
      (fun x hx => hs x (List.mem_cons_of_mem s hx))]
    congr 1
    funext p
    split
    · rw [List.map_cons, List.sum_cons, add_assoc]
    · rfl

theorem mkBlock_eq (f : Film) (t : TileSpec) (hb : 0 ≤ f.border)
    (hv : t.valid) :
    mkBlock f t = ImageBlock.mk t.origin t.size f.border (fun p =>
        if pixRegion t.size f.border p then
          (t.samples.map fun s => splat f.flt s.pos s.sample p).sum
        else 0) := by
  unfold mkBlock
  have hcreate : ImageBlock.create t.origin t.size f.border
      = ImageBlock.mk t.origin t.size f.border
          (fun p => if pixRegion t.size f.border p then 0 else 0) := by
    unfold ImageBlock.create
    congr 1
    funext p
    split <;> rfl
  rw [hcreate,
    foldl_put_buffer f.flt t.origin t.size f.border hb t.samples (fun _ => 0) hv]
  congr 1
  funext p
  split
  · rw [zero_add]
  · rfl

theorem blockContrib_mk (res o sz : ℤ × ℤ) (bd : ℤ) (buf : (ℤ × ℤ) → Accum)
    (q : ℤ × ℤ) :
    blockContrib res (ImageBlock.mk o sz bd buf) q
      = if pixRegion sz bd (q.1 - o.1, q.2 - o.2) ∧ filmRegion res q then
          buf (q.1 - o.1, q.2 - o.2)
        else 0 := rfl

theorem blockContrib_mkBlock (f : Film) (t : TileSpec) (q : ℤ × ℤ)
    (hr0 : 0 ≤ f.flt.radius) (hrb : f.flt.radius ≤ (f.border : ℚ))
    (hv : t.valid) :
    blockContrib f.resolution (mkBlock f t) q
      = if filmRegion f.resolution q then
          (t.samples.map fun s => splat f.flt (globalPos t s) s.sample q).sum
        else 0 := by
  have hb : (0 : ℤ) ≤ f.border := by
    have hq : (0 : ℚ) ≤ (f.border : ℚ) := le_trans hr0 hrb
    exact_mod_cast hq
  rw [mkBlock_eq f t hb hv, blockContrib_mk]
  by_cases hf : filmRegion f.resolution q
  · by_cases hreg : pixRegion t.size f.border
        (q.1 - t.origin.1, q.2 - t.origin.2)
    · simp only [if_pos (And.intro hreg hf), if_pos hf, if_pos hreg]
      refine congrArg List.sum (List.map_congr_left fun s _ => ?_)
      exact splat_translate f.flt s.pos s.sample t.origin q
    · have hnc : ¬ (pixRegion t.size f.border
          (q.1 - t.origin.1, q.2 - t.origin.2) ∧
          filmRegion f.resolution q) := fun hc => hreg hc.1
      simp only [if_neg hnc, if_pos hf]
      symm
      apply List.sum_eq_zero
      intro x hx
      rw [List.mem_map] at hx
      obtain ⟨s, hs, rfl⟩ := hx
      rw [show globalPos t s
          = ((t.origin.1 : ℚ) + s.pos.1, (t.origin.2 : ℚ) + s.pos.2) from rfl,
        ← splat_translate]
      exact splat_vanishes_outside f.flt t.size f.border s.pos s.sample _
        hrb (hv s hs) hreg
  · have hnc : ¬ (pixRegion t.size f.border
        (q.1 - t.origin.1, q.2 - t.origin.2) ∧
        filmRegion f.resolution q) := fun hc => hf hc.2
    simp only [if_neg hnc, if_neg hf]

theorem putSampleDirect_resolution (f : Film) (gpos : ℚ × ℚ)
    (sample : Nat → ℚ) :
    (f.putSampleDirect gpos sample).resolution = f.resolution := rfl

theorem putSampleDirect_flt (f : Film) (gpos : ℚ × ℚ) (sample : Nat → ℚ) :
    (f.putSampleDirect gpos sample).flt = f.flt := rfl

theorem directFold_resolution (l : List ((ℚ × ℚ) × (Nat → ℚ))) (f : Film) :
    (l.foldl (fun g p => g.putSampleDirect p.1 p.2) f).resolution
      = f.resolution := by
  induction l generalizing f with
  | nil => rfl
  | cons p l ih => exact ih (f.putSampleDirect p.1 p.2)

theorem directFold_border (l : List ((ℚ × ℚ) × (Nat → ℚ))) (f : Film) :
    (l.foldl (fun g p => g.putSampleDirect p.1 p.2) f).border = f.border := by
  induction l generalizing f with
  | nil => rfl
  | cons p l ih => exact ih (f.putSampleDirect p.1 p.2)

theorem directFold_flt (l : List ((ℚ × ℚ) × (Nat → ℚ))) (f : Film) :
    (l.foldl (fun g p => g.putSampleDirect p.1 p.2) f).flt = f.flt := by
  induction l generalizing f with
  | nil => rfl
  | cons p l ih => exact ih (f.putSampleDirect p.1 p.2)

theorem directFold_grid_q (l : List ((ℚ × ℚ) × (Nat → ℚ))) (f : Film)
    (q : ℤ × ℤ) :
    (l.foldl (fun g p => g.putSampleDirect p.1 p.2) f).grid q
      = f.grid q +
        if filmRegion f.resolution q then
          (l.map fun p => splat f.flt p.1 p.2 q).sum
        else 0 := by
  induction l generalizing f with
  | nil => by_cases hf : filmRegion f.resolution q <;> simp [hf]
  | cons p l ih =>
    show (l.foldl _ (f.putSampleDirect p.1 p.2)).grid q = _
    rw [ih (f.putSampleDirect p.1 p.2), putSampleDirect_resolution,
      putSampleDirect_flt]
    have hg : (f.putSampleDirect p.1 p.2).grid q
        = if filmRegion f.resolution q then f.grid q + splat f.flt p.1 p.2 q
          else f.grid q := rfl
    rw [hg]
    by_cases hf : filmRegion f.resolution q <;> simp [hf, add_assoc]

/-- Claim C3: merging completed blocks into a Film is order-independent (the
master grid after merging a list of blocks is invariant under permutation of
the list), and merging the blocks built from tile samples equals accumulating
the union of all the samples directly into one Film — merge is a commutative,
associative summation.  The hypotheses are the architecture's own invariants:
the filter radius is nonnegative and at most the block border
(`create_block` sizes every block to the filter radius rounded up) and each
worker splats only positions of the tile it owns. -/
theorem merge_order_independent_and_direct :
    (∀ (f : Film) (bs bs' : List ImageBlock), bs.Perm bs' →
        f.putBlocks bs = f.putBlocks bs') ∧
    (∀ (f : Film) (ts : List TileSpec),
        0 ≤ f.flt.radius → f.flt.radius ≤ (f.border : ℚ) →
        (∀ t ∈ ts, t.valid) →
        f.putBlocks (ts.map (mkBlock f)) = f.directAccum ts) := by
  constructor
  · intro f bs bs' hperm
    apply Film.ext
    · rw [putBlocks_resolution, putBlocks_resolution]
    · rw [putBlocks_border, putBlocks_border]
    · rw [putBlocks_flt, putBlocks_flt]
    · funext q
      rw [putBlocks_grid_q, putBlocks_grid_q]
      exact congrArg (f.grid q + ·) (List.Perm.sum_eq (hperm.map _))
  · intro f ts hr0 hrb hv
    apply Film.ext
    · rw [putBlocks_resolution]
      show f.resolution = (List.foldl _ f _).resolution
      rw [directFold_resolution]
    · rw [putBlocks_border]
      show f.border = (List.foldl _ f _).border
      rw [directFold_border]
    · rw [putBlocks_flt]
      show f.flt = (List.foldl _ f _).flt
      rw [directFold_flt]
    · funext q
      rw [putBlocks_grid_q]
      show _ = (List.foldl _ f _).grid q
      rw [directFold_grid_q]
      have hmap : (ts.map (mkBlock f)).map
            (fun b => blockContrib f.resolution b q)
          = ts.map (fun t =>
              if filmRegion f.resolution q then
                (t.samples.map fun s =>
                  splat f.flt (globalPos t s) s.sample q).sum
              else 0) := by
        rw [List.map_map]
        refine List.map_congr_left fun t ht => ?_
        exact blockContrib_mkBlock f t q hr0 hrb (hv t ht)
      rw [hmap, sum_map_ite]
      have hflat : (((ts.map fun t =>
              t.samples.map fun s => (globalPos t s, s.sample)).flatten).map
            (fun p => splat f.flt p.1 p.2 q)).sum
          = (ts.map fun t =>
              (t.samples.map fun s =>
                splat f.flt (globalPos t s) s.sample q).sum).sum := by
        rw [sum_map_over_flatten, List.map_map]
        refine congrArg List.sum (List.map_congr_left fun t ht => ?_)
        show ((t.samples.map fun s => (globalPos t s, s.sample)).map
            (fun p => splat f.flt p.1 p.2 q)).sum = _
        rw [List.map_map]
        rfl
      rw [hflat]

/-- Witness for C3: a 4×4 film with border 1 and a box filter of radius 1;
two one-sample tiles merged in both orders, and the second conjunct applied
to the two-tile list. -/
theorem merge_order_independent_and_direct_witness :
    ((Film.mk (4, 4) 1 ⟨fun _ => 1, 1⟩ fun _ => 0).putBlocks
        [mkBlock (Film.mk (4, 4) 1 ⟨fun _ => 1, 1⟩ fun _ => 0)
           ⟨(0, 0), (2, 2), [⟨(1, 1), fun _ => 2⟩]⟩,
         mkBlock (Film.mk (4, 4) 1 ⟨fun _ => 1, 1⟩ fun _ => 0)
           ⟨(2, 2), (2, 2), [⟨(0, 1), fun _ => 3⟩]⟩]
      = (Film.mk (4, 4) 1 ⟨fun _ => 1, 1⟩ fun _ => 0).putBlocks
        [mkBlock (Film.mk (4, 4) 1 ⟨fun _ => 1, 1⟩ fun _ => 0)
           ⟨(2, 2), (2, 2), [⟨(0, 1), fun _ => 3⟩]⟩,
         mkBlock (Film.mk (4, 4) 1 ⟨fun _ => 1, 1⟩ fun _ => 0)
           ⟨(0, 0), (2, 2), [⟨(1, 1), fun _ => 2⟩]⟩]) ∧
    ((Film.mk (4, 4) 1 ⟨fun _ => 1, 1⟩ fun _ => 0).putBlocks
        ([⟨(0, 0), (2, 2), [⟨(1, 1), fun _ => 2⟩]⟩,
          ⟨(2, 2), (2, 2), [⟨(0, 1), fun _ => 3⟩]⟩].map
          (mkBlock (Film.mk (4, 4) 1 ⟨fun _ => 1, 1⟩ fun _ => 0)))
      = (Film.mk (4, 4) 1 ⟨fun _ => 1, 1⟩ fun _ => 0).directAccum
          [⟨(0, 0), (2, 2), [⟨(1, 1), fun _ => 2⟩]⟩,
           ⟨(2, 2), (2, 2), [⟨(0, 1), fun _ => 3⟩]⟩]) :=
  ⟨merge_order_independent_and_direct.1
      (Film.mk (4, 4) 1 ⟨fun _ => 1, 1⟩ fun _ => 0) _ _
      (List.Perm.swap _ _ []),
   merge_order_independent_and_direct.2
      (Film.mk (4, 4) 1 ⟨fun _ => 1, 1⟩ fun _ => 0)
      [⟨(0, 0), (2, 2), [⟨(1, 1), fun _ => 2⟩]⟩,
       ⟨(2, 2), (2, 2), [⟨(0, 1), fun _ => 3⟩]⟩]
      (by decide) (by decide) (by decide)⟩

end Mitsuba
